import Mathlib

/-!
Verification of the pitch-flattening core of `StatcastMain.py`
(repository `AFL_Pitchers`).

Python strings are modelled as lists of characters (`Str`); Python's
`str.split`, `str.join` and f-string formatting are embedded as
executable Lean functions.  The module's separator parameter `sep`
defaults to `"__"` and every call site of `normalize_key` and
`flatten_dict` in the source uses that default, so the embedding
specialises `sep` to the fixed separator `"__"`.
-/

abbrev Str := List Char

/-- The fixed separator `"__"` used by every call site in the source. -/
def SEP : Str := ['_', '_']

/-- Python `key.split("__")`: greedy left-to-right scan, non-overlapping
matches, keeping empty pieces.  `acc` holds the current piece reversed. -/
def splitSep : Str → Str → List Str
  | [], acc => [acc.reverse]
  | [c], acc => [(c :: acc).reverse]
  | c :: d :: rest, acc =>
    if c = '_' ∧ d = '_' then
      acc.reverse :: splitSep rest []
    else
      splitSep (d :: rest) (c :: acc)

/-- Python `"__".join(parts)`. -/
def pyJoin : List Str → Str
  | [] => []
  | [p] => p
  | p :: rest => p ++ SEP ++ pyJoin rest

/-- `STRIP_TOKENS` from the source (line 10). -/
def STRIP_TOKENS : List Str :=
  [("details").toList, ("pitchData").toList, ("hitData").toList,
   ("breaks").toList, ("coordinates").toList]

/-- The segment filter of `normalize_key`:
`p not in STRIP_TOKENS and p != ""`. -/
def keepSeg (p : Str) : Bool := decide (p ∉ STRIP_TOKENS ∧ p ≠ [])

/-- `normalize_key` from the source (lines 12-18), with `sep`
specialised to the default `"__"`:
`parts = [p for p in key.split(sep) if p not in STRIP_TOKENS and p != ""]`,
`return sep.join(parts) if parts else key`. -/
def normalize_key (key : Str) : Str :=
  let parts := (splitSep key []).filter keepSeg
  if parts = [] then key else pyJoin parts

-- A quick sanity check of the split embedding on concrete inputs.
example : splitSep (("a___b").toList) [] = [("a").toList, ("_b").toList] := by decide
example : splitSep (("____").toList) [] = [[], [], []] := by decide
example : normalize_key (("details__call__code").toList) = ("call__code").toList := by decide
example : normalize_key (("pitchData").toList) = ("pitchData").toList := by decide

/-! ### Scan predicates for the split/join round trip -/

/-- Induction on the first two characters, mirroring `splitSep`. -/
theorem twoStepInduction {motive : Str → Prop} (h0 : motive [])
    (h1 : ∀ c, motive [c])
    (h2 : ∀ c d rest, motive (d :: rest) → motive rest → motive (c :: d :: rest)) :
    ∀ p, motive p
  | [] => h0
  | [c] => h1 c
  | c :: d :: rest =>
    h2 c d rest (twoStepInduction h0 h1 h2 (d :: rest)) (twoStepInduction h0 h1 h2 rest)

/-- No `"__"` window occurs inside `p`. -/
def noSep : Str → Prop
  | [] => True
  | [_] => True
  | c :: d :: rest => ¬(c = '_' ∧ d = '_') ∧ noSep (d :: rest)

/-- The boundary window between the last character of a piece and the
first character of what follows it. -/
def headCheck (c : Char) : Str → Prop
  | [] => True
  | e :: _ => ¬(c = '_' ∧ e = '_')

/-- `noSepUpto A s`: no `"__"` window starting inside `A` occurs in
`A ++ s` (the last such window may reach one character into `s`). -/
def noSepUpto : Str → Str → Prop
  | [], _ => True
  | [c], s => headCheck c s
  | c :: d :: rest, s => ¬(c = '_' ∧ d = '_') ∧ noSepUpto (d :: rest) s

/-- The last character of `p` is not an underscore (vacuous for `[]`). -/
def lastNotUS : Str → Prop
  | [] => True
  | [c] => c ≠ '_'
  | _ :: d :: rest => lastNotUS (d :: rest)

/-- A piece that may be followed by the separator without creating a
`"__"` window before the separator itself. -/
def cleanB (p : Str) : Prop := noSep p ∧ lastNotUS p

/-- Every non-final piece is clean; the final piece merely has no
internal `"__"` window. -/
def piecesOK : List Str → Prop
  | [] => True
  | [p] => noSep p
  | p :: rest => cleanB p ∧ piecesOK rest

theorem noSep_of_noSepUpto : ∀ A s, noSepUpto A s → noSep A := by
  intro A
  induction A using twoStepInduction with
  | h0 => intro s _; trivial
  | h1 c => intro s _; trivial
  | h2 c d rest ih _ =>
    intro s h
    exact ⟨h.1, ih s h.2⟩

theorem noSep_append : ∀ A s, noSep (A ++ s) ↔ (noSepUpto A s ∧ noSep s) := by
  intro A
  induction A using twoStepInduction with
  | h0 => intro s; simp [noSepUpto]
  | h1 c =>
    intro s
    cases s with
    | nil => simp [noSep, noSepUpto, headCheck]
    | cons e s2 => simp [noSep, noSepUpto, headCheck]
  | h2 c d rest ih _ =>
    intro s
    have : (c :: d :: rest) ++ s = c :: d :: (rest ++ s) := rfl
    rw [this]
    show (¬(c = '_' ∧ d = '_') ∧ noSep ((d :: rest) ++ s)) ↔ _
    rw [ih s]
    show _ ↔ ((¬(c = '_' ∧ d = '_') ∧ noSepUpto (d :: rest) s) ∧ noSep s)
    tauto

theorem lastNotUS_of_noSepUpto : ∀ A s, noSepUpto A ('_' :: s) → lastNotUS A := by
  intro A
  induction A using twoStepInduction with
  | h0 => intro s _; trivial
  | h1 c =>
    intro s h
    intro hc
    exact h ⟨hc, rfl⟩
  | h2 c d rest ih _ =>
    intro s h
    exact ih s h.2

theorem noSepUpto_snoc : ∀ A c s,
    noSepUpto (A ++ [c]) s ↔ (noSepUpto A (c :: s) ∧ headCheck c s) := by
  intro A
  induction A using twoStepInduction with
  | h0 => intro c s; simp [noSepUpto]
  | h1 a =>
    intro c s
    show (¬(a = '_' ∧ c = '_') ∧ noSepUpto [c] s) ↔ (headCheck a (c :: s) ∧ headCheck c s)
    simp [headCheck, noSepUpto]
  | h2 a b rest ih _ =>
    intro c s
    have : (a :: b :: rest) ++ [c] = a :: b :: (rest ++ [c]) := rfl
    rw [this]
    show (¬(a = '_' ∧ b = '_') ∧ noSepUpto ((b :: rest) ++ [c]) s) ↔ _
    rw [ih c s]
    show _ ↔ ((¬(a = '_' ∧ b = '_') ∧ noSepUpto (b :: rest) (c :: s)) ∧ headCheck c s)
    tauto

theorem splitSep_ne_nil : ∀ s acc, splitSep s acc ≠ [] := by
  intro s
  induction s using twoStepInduction with
  | h0 => intro acc; simp [splitSep]
  | h1 c => intro acc; simp [splitSep]
  | h2 c d rest ih1 ih2 =>
    intro acc
    show (if c = '_' ∧ d = '_' then acc.reverse :: splitSep rest [] else splitSep (d :: rest) (c :: acc)) ≠ []
    by_cases h : c = '_' ∧ d = '_'
    · simp [h]
    · simpa [h] using ih1 (c :: acc)

/-- A piece with no internal `"__"` window is scanned without a match. -/
theorem splitSep_noSep : ∀ p, noSep p → ∀ acc, splitSep p acc = [acc.reverse ++ p] := by
  intro p
  induction p using twoStepInduction with
  | h0 => intro _ acc; simp [splitSep]
  | h1 c => intro _ acc; simp [splitSep]
  | h2 c d rest ih1 _ =>
    intro h acc
    show (if c = '_' ∧ d = '_' then acc.reverse :: splitSep rest [] else splitSep (d :: rest) (c :: acc)) = _
    rw [if_neg h.1, ih1 h.2 (c :: acc)]
    simp

/-- Scanning `p ++ "__" ++ t` from a clean piece `p` emits exactly
`acc.reverse ++ p` and restarts on `t`. -/
theorem splitSep_clean_append : ∀ p, cleanB p →
    ∀ t acc, splitSep (p ++ SEP ++ t) acc = (acc.reverse ++ p) :: splitSep t [] := by
  intro p
  induction p using twoStepInduction with
  | h0 =>
    intro _ t acc
    show (if '_' = '_' ∧ '_' = '_' then acc.reverse :: splitSep t [] else _) = _
    rw [if_pos ⟨rfl, rfl⟩]
    simp
  | h1 c =>
    intro h t acc
    have hc : c ≠ '_' := h.2
    show (if c = '_' ∧ '_' = '_' then _ else splitSep ('_' :: ('_' :: t)) (c :: acc)) = _
    rw [if_neg (fun hcd => hc hcd.1)]
    show (if '_' = '_' ∧ '_' = '_' then (c :: acc).reverse :: splitSep t [] else _) = _
    rw [if_pos ⟨rfl, rfl⟩]
    simp
  | h2 c d rest ih1 _ =>
    intro h t acc
    have hns : noSep (c :: d :: rest) := h.1
    have hcd : ¬(c = '_' ∧ d = '_') := hns.1
    have hclean : cleanB (d :: rest) := ⟨hns.2, h.2⟩
    show (if c = '_' ∧ d = '_' then _ else splitSep ((d :: rest) ++ SEP ++ t) (c :: acc)) = _
    rw [if_neg hcd, ih1 hclean t (c :: acc)]
    simp

theorem piecesOK_cons_of_ne {A : Str} {L : List Str} (hL : L ≠ []) :
    piecesOK (A :: L) ↔ (cleanB A ∧ piecesOK L) := by
  cases L with
  | nil => exact absurd rfl hL
  | cons x xs => rfl

/-- Invariant form of the structure theorem for `splitSep`. -/
theorem piecesOK_splitSep_aux : ∀ s acc, noSepUpto acc.reverse s → piecesOK (splitSep s acc) := by
  intro s
  induction s using twoStepInduction with
  | h0 =>
    intro acc h
    show piecesOK [acc.reverse]
    exact noSep_of_noSepUpto _ _ h
  | h1 c =>
    intro acc h
    show piecesOK [(c :: acc).reverse]
    have : (c :: acc).reverse = acc.reverse ++ [c] := by simp
    rw [this]
    show noSep (acc.reverse ++ [c])
    rw [noSep_append]
    exact ⟨h, trivial⟩
  | h2 c d rest ih1 ih2 =>
    intro acc h
    show piecesOK (if c = '_' ∧ d = '_' then acc.reverse :: splitSep rest [] else splitSep (d :: rest) (c :: acc))
    by_cases hcd : c = '_' ∧ d = '_'
    · rw [if_pos hcd]
      rw [piecesOK_cons_of_ne (splitSep_ne_nil rest [])]
      refine ⟨⟨noSep_of_noSepUpto _ _ h, ?_⟩, ih2 [] trivial⟩
      obtain ⟨hc, hd⟩ := hcd
      subst hc
      exact lastNotUS_of_noSepUpto _ _ h
    · rw [if_neg hcd]
      apply ih1
      have : (c :: acc).reverse = acc.reverse ++ [c] := by simp
      rw [this, noSepUpto_snoc]
      exact ⟨h, hcd⟩

theorem piecesOK_splitSep (s : Str) : piecesOK (splitSep s []) :=
  piecesOK_splitSep_aux s [] trivial

theorem piecesOK_tail {a : Str} {l : List Str} (h : piecesOK (a :: l)) : piecesOK l := by
  cases l with
  | nil => trivial
  | cons x xs => exact h.2

theorem piecesOK_head_noSep {a : Str} {l : List Str} (h : piecesOK (a :: l)) : noSep a := by
  cases l with
  | nil => exact h
  | cons x xs => exact h.1.1

theorem piecesOK_head_clean {a : Str} {l : List Str} (hl : l ≠ []) (h : piecesOK (a :: l)) :
    cleanB a := by
  cases l with
  | nil => exact absurd rfl hl
  | cons x xs => exact h.1

/-- `piecesOK` is inherited by sublists. -/
theorem piecesOK_sublist : ∀ {l' l : List Str}, List.Sublist l' l → piecesOK l → piecesOK l' := by
  intro l' l hsub
  induction hsub with
  | slnil => intro _; trivial
  | cons a h ih => intro hp; exact ih (piecesOK_tail hp)
  | cons₂ a h ih =>
    intro hp
    rename_i l₁ l₂
    cases hl₁ : l₁ with
    | nil =>
      show piecesOK [a]
      exact piecesOK_head_noSep hp
    | cons x xs =>
      subst hl₁
      have hl₂ : l₂ ≠ [] := by
        intro h2
        subst h2
        exact absurd (List.sublist_nil.mp h) (by simp)
      rw [piecesOK_cons_of_ne (by simp)]
      exact ⟨piecesOK_head_clean hl₂ hp, ih (piecesOK_tail hp)⟩

/-- Re-splitting the join of a nonempty `piecesOK` list recovers it. -/
theorem splitSep_pyJoin : ∀ ps : List Str, ps ≠ [] → piecesOK ps → splitSep (pyJoin ps) [] = ps := by
  intro ps
  induction ps with
  | nil => intro h _; exact absurd rfl h
  | cons p tail ih =>
    intro _ hp
    cases tail with
    | nil =>
      show splitSep p [] = [p]
      rw [splitSep_noSep p hp []]
      simp
    | cons q rest =>
      show splitSep (p ++ SEP ++ pyJoin (q :: rest)) [] = _
      rw [splitSep_clean_append p hp.1 (pyJoin (q :: rest)) []]
      rw [ih (by simp) hp.2]
      simp

theorem filter_self_filter (f : Str → Bool) (l : List Str) :
    (l.filter f).filter f = l.filter f := by
  induction l with
  | nil => rfl
  | cons a tl ih =>
    by_cases h : f a
    · simp [List.filter, h, ih]
    · simp [List.filter, h, ih]

/-- Round trip: splitting the join of the filtered pieces of a split
gives those pieces back. -/
theorem split_filter_roundtrip (f : Str → Bool) (s : Str)
    (h : (splitSep s []).filter f ≠ []) :
    splitSep (pyJoin ((splitSep s []).filter f)) [] = (splitSep s []).filter f :=
  splitSep_pyJoin _ h (piecesOK_sublist (List.filter_sublist _) (piecesOK_splitSep s))

/-! ### Claims about `normalize_key` (C1, C2, C7) -/

/-- C1 (amended): for every key whose separator-split segments include a
reserved token, provided at least one segment survives the filter (it is
neither a reserved token nor empty), the result of `normalize_key`
contains no segment literally equal to any reserved token.  (Without the
proviso the claim fails: the fallback case returns the original key, see
the counterexample.) -/
theorem normalize_key_strips_reserved (key : Str)
    (_hsome : ∃ seg ∈ splitSep key [], seg ∈ STRIP_TOKENS)
    (hrem : (splitSep key []).filter keepSeg ≠ []) :
    ∀ seg ∈ splitSep (normalize_key key) [], seg ∉ STRIP_TOKENS := by
  intro seg hseg
  have hnk : normalize_key key = pyJoin ((splitSep key []).filter keepSeg) := by
    simp only [normalize_key]
    rw [if_neg hrem]
  rw [hnk, split_filter_roundtrip keepSeg key hrem] at hseg
  have hkeep : keepSeg seg = true := List.of_mem_filter hseg
  have : seg ∉ STRIP_TOKENS ∧ seg ≠ [] := of_decide_eq_true hkeep
  exact this.1

/-- C1 witness at the concrete key `"pitchData__x"`. -/
theorem normalize_key_strips_reserved_witness :
    ((∃ seg ∈ splitSep (("pitchData__x").toList) [], seg ∈ STRIP_TOKENS) ∧
      (splitSep (("pitchData__x").toList) []).filter keepSeg ≠ []) ∧
    ∀ seg ∈ splitSep (normalize_key (("pitchData__x").toList)) [], seg ∉ STRIP_TOKENS :=
  ⟨⟨by decide, by decide⟩,
    normalize_key_strips_reserved (("pitchData__x").toList) (by decide) (by decide)⟩

/-- C1 counterexample: the key `"pitchData"` consists of a single
reserved segment, yet the normalized result still contains a segment
equal to a reserved token (the fallback returns the key unchanged). -/
theorem normalize_key_strips_reserved_cex :
    (∃ seg ∈ splitSep (("pitchData").toList) [], seg ∈ STRIP_TOKENS) ∧
    ∃ seg ∈ splitSep (normalize_key (("pitchData").toList)) [], seg ∈ STRIP_TOKENS := by
  decide

/-- C2: if dropping all reserved-token segments and all empty segments
leaves an empty sequence, `normalize_key` returns the original key
unchanged. -/
theorem normalize_key_fallback (key : Str)
    (h : (splitSep key []).filter keepSeg = []) : normalize_key key = key := by
  simp only [normalize_key]
  rw [if_pos h]

/-- C2 witness: the key `"pitchData"` is returned unchanged. -/
theorem normalize_key_fallback_witness :
    (splitSep (("pitchData").toList) []).filter keepSeg = [] ∧
    normalize_key (("pitchData").toList) = ("pitchData").toList :=
  ⟨by decide, normalize_key_fallback (("pitchData").toList) (by decide)⟩

/-- C7: `normalize_key` is idempotent. -/
theorem normalize_key_idempotent (key : Str) :
    normalize_key (normalize_key key) = normalize_key key := by
  by_cases h : (splitSep key []).filter keepSeg = []
  · rw [normalize_key_fallback key h]
    exact normalize_key_fallback key h
  · have hnk : normalize_key key = pyJoin ((splitSep key []).filter keepSeg) := by
      simp only [normalize_key]
      rw [if_neg h]
    conv_lhs => rw [hnk]
    simp only [normalize_key]
    rw [split_filter_roundtrip keepSeg key h, filter_self_filter, if_neg h, if_neg h]

/-! ### JSON-like values and Python dictionaries -/

mutual
/-- Untyped JSON-like trees, as produced by parsing the live feed.
Numbers are modelled as integers (the claims under verification do not
involve float formatting).  Objects and arrays carry their own list
types so that the flattener below is structurally recursive. -/
inductive JVal where
  | null
  | bool (b : Bool)
  | num (n : Int)
  | str (s : Str)
  | obj (entries : JEntries)
  | arr (items : JItems)

/-- The ordered key/value entries of a JSON object. -/
inductive JEntries where
  | nil
  | cons (k : Str) (v : JVal) (rest : JEntries)

/-- The ordered items of a JSON array. -/
inductive JItems where
  | nil
  | cons (v : JVal) (rest : JItems)
end

def JEntries.ofPairs : List (Str × JVal) → JEntries
  | [] => .nil
  | (k, v) :: rest => .cons k v (JEntries.ofPairs rest)

def JEntries.toPairs : JEntries → List (Str × JVal)
  | .nil => []
  | .cons k v rest => (k, v) :: JEntries.toPairs rest

def JItems.ofList : List JVal → JItems
  | [] => .nil
  | v :: rest => .cons v (JItems.ofList rest)

def JItems.toList : JItems → List JVal
  | .nil => []
  | .cons v rest => v :: JItems.toList rest

def JEntries.isNil : JEntries → Bool
  | .nil => true
  | _ => false

def JItems.isNil : JItems → Bool
  | .nil => true
  | _ => false

/-- A JSON object literal. -/
def objL (l : List (Str × JVal)) : JVal := .obj (JEntries.ofPairs l)

/-- A JSON array literal. -/
def arrL (l : List JVal) : JVal := .arr (JItems.ofList l)

/-- Lookup of a key in a JSON object (`p in cur` / `cur[p]`; a parsed
JSON object has no duplicate keys, so first match is the match). -/
def eget? : JEntries → Str → Option JVal
  | .nil, _ => none
  | .cons k v rest, key => if k = key then some v else eget? rest key

/-- A Python dict with string keys - the flat rows being built - as an
insertion-ordered association list without duplicate keys. -/
abbrev Dict := List (Str × JVal)

/-- Lookup (`d[k]` / `k in d`). -/
def dget? : Dict → Str → Option JVal
  | [], _ => none
  | (k, v) :: rest, key => if k = key then some v else dget? rest key

/-- Assignment `d[key] = val`: an existing key keeps its position and
gets the new value, a new key is appended. -/
def dset : Dict → Str → JVal → Dict
  | [], key, val => [(key, val)]
  | (k, v) :: rest, key, val =>
    if k = key then (k, val) :: rest else (k, v) :: dset rest key val

/-- `d.update(e)`: assign every binding of `e` into `d`, in order. -/
def dupdate (d e : Dict) : Dict := e.foldl (fun acc kv => dset acc kv.1 kv.2) d

/-- The value the *last* binding of `e` gives to `key` (for a dict
without duplicate keys this is plain lookup). -/
def dlastGet? : Dict → Str → Option JVal
  | [], _ => none
  | (k, v) :: rest, key =>
    match dlastGet? rest key with
    | some w => some w
    | none => if k = key then some v else none

/-- Left-biased choice on optional values. -/
def oor (a b : Option JVal) : Option JVal :=
  match a with
  | some v => some v
  | none => b

theorem dget?_dset (d : Dict) (k : Str) (v : JVal) (key : Str) :
    dget? (dset d k v) key = if key = k then some v else dget? d key := by
  induction d with
  | nil =>
    by_cases h : key = k
    · subst h; simp [dset, dget?]
    · simp [dset, dget?, h, Ne.symm h]
  | cons kv rest ih =>
    obtain ⟨k0, v0⟩ := kv
    by_cases h0 : k0 = k
    · subst h0
      by_cases h : key = k0
      · subst h; simp [dset, dget?]
      · simp [dset, dget?, h, Ne.symm h]
    · by_cases h : key = k0
      · subst h
        simp [dset, dget?, h0]
      · simp [dset, dget?, h0, Ne.symm h, ih]

theorem oor_assoc (a b c : Option JVal) : oor (oor a b) c = oor a (oor b c) := by
  cases a <;> simp [oor]

/-- Semantics of `d.update(e)`: the last binding of `e` wins, otherwise
the binding of `d` is kept. -/
theorem dget?_dupdate (d e : Dict) (key : Str) :
    dget? (dupdate d e) key = oor (dlastGet? e key) (dget? d key) := by
  induction e generalizing d with
  | nil => simp [dupdate, dlastGet?, oor]
  | cons kv rest ih =>
    obtain ⟨k0, v0⟩ := kv
    show dget? (dupdate (dset d k0 v0) rest) key = _
    rw [ih (dset d k0 v0), dget?_dset]
    simp only [dlastGet?]
    cases hlast : dlastGet? rest key with
    | some w => simp [oor]
    | none =>
      by_cases h : key = k0
      · subst h
        simp [oor]
      · rw [if_neg (Ne.symm h), if_neg h]

/-! ### Truthiness, safe lookup and Python accessors -/

/-- Python truthiness of a JSON value. -/
def jTruthy : JVal → Bool
  | .null => false
  | .bool b => b
  | .num n => decide (n ≠ 0)
  | .str s => !s.isEmpty
  | .obj es => !es.isNil
  | .arr xs => !xs.isNil

/-- `safe_get` from the source (lines 41-48): walk `path`; whenever the
current node is a dict containing the segment, descend, otherwise return
the default. -/
def safe_get : JVal → List Str → JVal → JVal
  | cur, [], _ => cur
  | cur, p :: rest, dflt =>
    match cur with
    | .obj es =>
      match eget? es p with
      | some v => safe_get v rest dflt
      | none => dflt
    | _ => dflt

/-- Specification-side lookup, following the spec's words: the value at
the path when every intermediate node is a mapping containing the next
segment, and `none` otherwise. -/
def lookupPath : JVal → List Str → Option JVal
  | cur, [] => some cur
  | .obj es, p :: rest =>
    match eget? es p with
    | some v => lookupPath v rest
    | none => none
  | _, _ :: _ => none

/-- Python `d.get(k)` (`None` when absent).  In the source this is only
reached with `d` a dict; on a non-dict Python would raise
`AttributeError` (outside the crash-free domain), rendered as `null`. -/
def pyGet (d : JVal) (k : Str) : JVal :=
  match d with
  | .obj es => (eget? es k).getD .null
  | _ => .null

/-- Python `d.get(k, dflt)`. -/
def pyGetD (d : JVal) (k : Str) (dflt : JVal) : JVal :=
  match d with
  | .obj es => (eget? es k).getD dflt
  | _ => dflt

/-- Python `a or b`. -/
def pyOr (a b : JVal) : JVal := if jTruthy a then a else b

/-- The entries of an object; empty for anything else (`{}` and `None`
have no entries; iterating a truthy non-dict would raise in Python,
outside the crash-free domain). -/
def asObjEntries : JVal → JEntries
  | .obj es => es
  | _ => .nil

/-- The items of an array; `[]` for anything else (enumerating a falsy
non-list yields nothing in Python; a truthy non-list is outside the
crash-free domain). -/
def asArr : JVal → List JVal
  | .arr xs => xs.toList
  | _ => []

/-! ### Decimal formatting (Python `str` of integers) -/

def digitChar : Nat → Char
  | 0 => '0'
  | 1 => '1'
  | 2 => '2'
  | 3 => '3'
  | 4 => '4'
  | 5 => '5'
  | 6 => '6'
  | 7 => '7'
  | 8 => '8'
  | _ => '9'

/-- Decimal digits of `n`; any fuel greater than `n` is sufficient. -/
def natStrAux : Nat → Nat → Str
  | 0, _ => []
  | fuel + 1, n =>
    if n < 10 then [digitChar n] else natStrAux fuel (n / 10) ++ [digitChar (n % 10)]

/-- Python `str(n)` for a natural number. -/
def natStr (n : Nat) : Str := natStrAux (n + 1) n

/-- Python `str(i)` for an integer. -/
def intStr (i : Int) : Str :=
  if i < 0 then '-' :: natStr i.natAbs else natStr i.toNat

/-- Python `str()` / f-string rendering of a JSON value, for the scalar
values that occur as `atBatIndex`.  Python's `repr`-style rendering of
containers is not modelled; containers map to fixed placeholders. -/
def fmtJVal : JVal → Str
  | .null => ("None").toList
  | .bool true => ("True").toList
  | .bool false => ("False").toList
  | .num n => intStr n
  | .str s => s
  | .obj _ => ("<dict>").toList
  | .arr _ => ("<list>").toList

example : natStr 0 = ("0").toList := by decide
example : natStr 2024 = ("2024").toList := by decide
example : intStr (-31) = ("-31").toList := by decide

/-- C9: `safe_get` is total by construction; it returns the value at the
path when every intermediate node is a mapping containing the next
segment, and the configured default otherwise (absent segment or
non-mapping node) — it never raises. -/
theorem safe_get_eq_lookupPath (d : JVal) (path : List Str) (dflt : JVal) :
    safe_get d path dflt = (lookupPath d path).getD dflt := by
  induction path generalizing d with
  | nil => simp [safe_get, lookupPath]
  | cons p rest ih =>
    cases d with
    | obj es =>
      cases h : eget? es p with
      | some v => simp [safe_get, lookupPath, h, ih]
      | none => simp [safe_get, lookupPath, h]
    | null => simp [safe_get, lookupPath]
    | bool b => simp [safe_get, lookupPath]
    | num n => simp [safe_get, lookupPath]
    | str s => simp [safe_get, lookupPath]
    | arr xs => simp [safe_get, lookupPath]

/-! ### The recursive flattener (`flatten_dict`, lines 20-34) -/

mutual
/-- The `for k, v in (d or {}).items()` loop of `flatten_dict`,
threading the output dict `out`. -/
def flattenEntries : JEntries → Str → Dict → Dict
  | .nil, _, out => out
  | .cons k v rest, pre, out =>
    let key := if pre.isEmpty then k else pre ++ SEP ++ k
    let out2 :=
      match v with
      | .obj sub => dupdate out (flattenEntries sub key [])
      | .arr items => flattenItems key items 0 out
      | other => dset out (normalize_key key) other
    flattenEntries rest pre out2

/-- The `for i, item in enumerate(v)` loop of `flatten_dict`: a dict
item is flattened recursively under `key__i`; any other item (including
a nested list) is stored as-is under the normalized `key__i`. -/
def flattenItems : Str → JItems → Nat → Dict → Dict
  | _, .nil, _, out => out
  | key, .cons item rest, i, out =>
    let out2 :=
      match item with
      | .obj sub => dupdate out (flattenEntries sub (key ++ SEP ++ natStr i) [])
      | other => dset out (normalize_key (key ++ SEP ++ natStr i)) other
    flattenItems key rest (i + 1) out2
end

/-- `flatten_dict` from the source (lines 20-34), with `sep` specialised
to the default `"__"`.  `(d or {})` makes a falsy argument contribute no
entries; a truthy non-dict would raise in Python (outside the crash-free
domain, rendered as no entries). -/
def flatten_dict (d : JVal) (pre : Str) : Dict :=
  flattenEntries (asObjEntries d) pre []

example :
    flatten_dict (objL [(("a").toList, objL [(("b").toList, JVal.num 3)])]) [] =
      [(("a__b").toList, JVal.num 3)] := by rfl

/-- C6: flattening `{"details": {"call": {"code": "B"}}}` yields
`{"call__code": "B"}`, and flattening `{"x": [1, 2]}` yields
`{"x__0": 1, "x__1": 2}` — scalar leaves map to the normalized
separator-joined path, with 0-based array indices as path segments. -/
theorem flatten_dict_examples :
    flatten_dict (objL [(("details").toList,
        objL [(("call").toList, objL [(("code").toList, JVal.str (("B").toList))])])]) [] =
      [(("call__code").toList, JVal.str (("B").toList))] ∧
    flatten_dict (objL [(("x").toList, arrL [JVal.num 1, JVal.num 2])]) [] =
      [(("x__0").toList, JVal.num 1), (("x__1").toList, JVal.num 2)] :=
  ⟨rfl, rfl⟩

/-- C8 counterexample: an array element that is itself an array is *not*
recursively flattened; `{"x": [[7]]}` flattens to the raw inner list
stored under `"x__0"`, and no `"x__0__0"` key exists. -/
theorem flatten_nested_array_cex :
    dget? (flatten_dict (objL [(("x").toList, arrL [arrL [JVal.num 7]])]) [])
        (("x__0__0").toList) = none ∧
    dget? (flatten_dict (objL [(("x").toList, arrL [arrL [JVal.num 7]])]) [])
        (("x__0").toList) = some (arrL [JVal.num 7]) :=
  ⟨rfl, rfl⟩

/-- C8 (amended): the flattener recurses into objects at every depth,
including objects that are array elements, but an array element that is
itself an array is stored as a raw value under the indexed key — the
array branch expands only one level of array nesting. -/
theorem flatten_array_one_level :
    flatten_dict (objL [(("x").toList,
        arrL [arrL [JVal.num 7], objL [(("a").toList, JVal.num 1)]])]) [] =
      [(("x__0").toList, arrL [JVal.num 7]), (("x__1__a").toList, JVal.num 1)] :=
  rfl

/-! ### The row builder (`rows_from_game`, lines 60-114) -/

/-- A flat pitch row. -/
abbrev Row := Dict

/-- The per-play context record `base_ctx` (lines 77-99).  The source
extracts the four game-level fields once before the play loop; they are
pure lookups and are inlined here. -/
def base_ctx (game_pk : Int) (data : JVal) (play_idx : Nat) (play : JVal) : Row :=
  let about := pyGetD play (("about").toList) (objL [])
  let matchup := pyGetD play (("matchup").toList) (objL [])
  let count := pyGetD play (("count").toList) (objL [])
  [((("game_id").toList), JVal.num game_pk),
   ((("game_date").toList), safe_get data
      [("gameData").toList, ("datetime").toList, ("officialDate").toList] .null),
   ((("venue_name").toList), safe_get data
      [("gameData").toList, ("venue").toList, ("name").toList] .null),
   ((("home_team").toList), safe_get data
      [("gameData").toList, ("teams").toList, ("home").toList, ("name").toList] .null),
   ((("away_team").toList), safe_get data
      [("gameData").toList, ("teams").toList, ("away").toList, ("name").toList] .null),
   ((("at_bat_index").toList), pyGet play (("atBatIndex").toList)),
   ((("play_idx").toList), JVal.num (play_idx : Int)),
   ((("inning").toList), pyGet about (("inning").toList)),
   ((("is_top_inning").toList), pyGet about (("isTopInning").toList)),
   ((("batter_id").toList), safe_get matchup [("batter").toList, ("id").toList] .null),
   ((("batter_name").toList), safe_get matchup [("batter").toList, ("fullName").toList] .null),
   ((("pitcher_id").toList), safe_get matchup [("pitcher").toList, ("id").toList] .null),
   ((("pitcher_name").toList), safe_get matchup [("pitcher").toList, ("fullName").toList] .null),
   ((("balls").toList), pyGet count (("balls").toList)),
   ((("strikes").toList), pyGet count (("strikes").toList)),
   ((("outs").toList), pyGet count (("outs").toList))]

/-- `pitch_uid = f"{game_pk}-{play.get('atBatIndex')}-{ev_idx}"` (line 106). -/
def pitchUid (game_pk : Int) (play : JVal) (ev_idx : Nat) : Str :=
  intStr game_pk ++ ('-' :: (fmtJVal (pyGet play (("atBatIndex").toList)) ++ ('-' :: natStr ev_idx)))

/-- The flattened `details` block, `flatten_dict(ev.get("details") or {})`. -/
def dBlock (ev : JVal) : Dict := flatten_dict (pyOr (pyGet ev (("details").toList)) (objL [])) []

/-- The flattened `pitchData` block. -/
def pBlock (ev : JVal) : Dict := flatten_dict (pyOr (pyGet ev (("pitchData").toList)) (objL [])) []

/-- The flattened `hitData` block. -/
def hBlock (ev : JVal) : Dict := flatten_dict (pyOr (pyGet ev (("hitData").toList)) (objL [])) []

/-- The row before the block merges: a copy of the play context plus
`event_idx` and the synthesized `pitch_uid` (lines 104-106). -/
def preRowOf (game_pk : Int) (ctx : Row) (play : JVal) (ev_idx : Nat) : Row :=
  dset (dset ctx (("event_idx").toList) (JVal.num (ev_idx : Int)))
    (("pitch_uid").toList) (JVal.str (pitchUid game_pk play ev_idx))

/-- One pitch row (lines 104-112): the pre-row updated with the
flattened `details`, then `pitchData`, then `hitData` blocks. -/
def mkRow (game_pk : Int) (ctx : Row) (play : JVal) (ev_idx : Nat) (ev : JVal) : Row :=
  dupdate (dupdate (dupdate (preRowOf game_pk ctx play ev_idx) (dBlock ev)) (pBlock ev)) (hBlock ev)

/-- The play list the row loop iterates over: empty when the payload is
falsy (`if not data`) or the extracted `allPlays` is falsy
(`if not plays`), lines 61-73. -/
def playsOf (data : JVal) : List JVal :=
  if jTruthy data then
    let plays := safe_get data [("liveData").toList, ("plays").toList, ("allPlays").toList] (arrL [])
    if jTruthy plays then asArr plays else []
  else []

/-- `play.get("playEvents", [])` as a list of sub-events. -/
def playEventsOf (play : JVal) : List JVal :=
  asArr (pyGetD play (("playEvents").toList) (arrL []))

/-- The indexed sub-events whose `isPitch` flag is truthy; the others
are skipped by `continue` (lines 101-102). -/
def pitchEvents (play : JVal) : List (Nat × JVal) :=
  (playEventsOf play).enum.filter (fun ep => jTruthy (pyGet ep.2 (("isPitch").toList)))

/-- `rows_from_game` (lines 60-114), applied to the already-fetched
payload (the HTTP fetch is I/O and outside the model; a failed fetch
yields a falsy payload and hence no rows). -/
def rows_from_game (game_pk : Int) (data : JVal) : List Row :=
  (playsOf data).enum.flatMap (fun pp =>
    (pitchEvents pp.2).map (fun ep => mkRow game_pk (base_ctx game_pk data pp.1 pp.2) pp.2 ep.1 ep.2))

/-- The (play index, sub-event index) provenance of each emitted row, in
emission order. -/
def pitchPairs (data : JVal) : List (Nat × Nat) :=
  (playsOf data).enum.flatMap (fun pp => (pitchEvents pp.2).map (fun ep => (pp.1, ep.1)))

def playAt (data : JVal) (i : Nat) : JVal := (playsOf data).getD i .null

def evAt (play : JVal) (j : Nat) : JVal := (playEventsOf play).getD j .null

/-- The row emitted for the provenance pair `pr`. -/
def emitRow (game_pk : Int) (data : JVal) (pr : Nat × Nat) : Row :=
  mkRow game_pk (base_ctx game_pk data pr.1 (playAt data pr.1)) (playAt data pr.1) pr.2
    (evAt (playAt data pr.1) pr.2)

/-- The number of sub-events with a truthy pitch flag, over all plays. -/
def countPitches (data : JVal) : Nat :=
  ((playsOf data).map (fun play => (playEventsOf play).countP
    (fun ev => jTruthy (pyGet ev (("isPitch").toList))))).sum

/-- Strict lexicographic order on (play index, sub-event index). -/
def pairLt (a b : Nat × Nat) : Prop := a.1 < b.1 ∨ (a.1 = b.1 ∧ a.2 < b.2)

/-! ### Structure lemmas for the emitted rows -/

theorem flatMap_congr {α β : Type} {l : List α} {f g : α → List β}
    (h : ∀ a ∈ l, f a = g a) : l.flatMap f = l.flatMap g := by
  induction l with
  | nil => rfl
  | cons a tl ih =>
    rw [List.flatMap_cons, List.flatMap_cons, h a (by simp),
      ih (fun x hx => h x (by simp [hx]))]

theorem playAt_of_mem_enum {data : JVal} {pp : Nat × JVal}
    (h : pp ∈ (playsOf data).enum) : playAt data pp.1 = pp.2 := by
  have h2 : (playsOf data)[pp.1]? = some pp.2 := List.mem_enum_iff_getElem?.mp h
  simp [playAt, List.getD_eq_getElem?_getD, h2]

theorem evAt_of_mem_pitchEvents {play : JVal} {ep : Nat × JVal}
    (h : ep ∈ pitchEvents play) : evAt play ep.1 = ep.2 := by
  have h1 : ep ∈ (playEventsOf play).enum := List.mem_of_mem_filter h
  have h2 : (playEventsOf play)[ep.1]? = some ep.2 := List.mem_enum_iff_getElem?.mp h1
  simp [evAt, List.getD_eq_getElem?_getD, h2]

/-- The emitted rows are exactly the rows of the provenance pairs. -/
theorem rows_eq_map_emit (game_pk : Int) (data : JVal) :
    rows_from_game game_pk data = (pitchPairs data).map (emitRow game_pk data) := by
  unfold rows_from_game pitchPairs
  rw [List.map_flatMap]
  apply flatMap_congr
  intro pp hpp
  rw [List.map_map]
  apply List.map_congr_left
  intro ep hep
  simp only [Function.comp, emitRow]
  rw [playAt_of_mem_enum hpp]
  rw [evAt_of_mem_pitchEvents hep]

theorem countP_enumFrom (q : JVal → Bool) (l : List JVal) : ∀ n,
    List.countP (fun ep : Nat × JVal => q ep.2) (List.enumFrom n l) = List.countP q l := by
  induction l with
  | nil => intro n; rfl
  | cons x xs ih =>
    intro n
    rw [List.enumFrom_cons, List.countP_cons, List.countP_cons, ih (n + 1)]

theorem length_pitchEvents (play : JVal) :
    (pitchEvents play).length =
      (playEventsOf play).countP (fun ev => jTruthy (pyGet ev (("isPitch").toList))) := by
  show (List.filter _ _).length = _
  rw [← List.countP_eq_length_filter]
  have he : (playEventsOf play).enum = List.enumFrom 0 (playEventsOf play) := rfl
  rw [he]
  exact countP_enumFrom (fun ev => jTruthy (pyGet ev (("isPitch").toList))) (playEventsOf play) 0

theorem map_comp_snd_enumFrom {β : Type} (h : JVal → β) (l : List JVal) : ∀ n,
    List.map (fun pp : Nat × JVal => h pp.2) (List.enumFrom n l) = List.map h l := by
  induction l with
  | nil => intro n; rfl
  | cons x xs ih =>
    intro n
    rw [List.enumFrom_cons, List.map_cons, List.map_cons, ih]

/-- The number of emitted rows is the number of truthy-pitch sub-events. -/
theorem length_rows (game_pk : Int) (data : JVal) :
    (rows_from_game game_pk data).length = countPitches data := by
  unfold rows_from_game countPitches
  rw [List.length_flatMap]
  have h1 : List.map (List.length ∘ fun pp : Nat × JVal =>
        (pitchEvents pp.2).map (fun ep =>
          mkRow game_pk (base_ctx game_pk data pp.1 pp.2) pp.2 ep.1 ep.2))
        (playsOf data).enum
      = List.map (fun pp : Nat × JVal => (playEventsOf pp.2).countP
          (fun ev => jTruthy (pyGet ev (("isPitch").toList)))) (playsOf data).enum := by
    apply List.map_congr_left
    intro pp _
    show (List.map _ (pitchEvents pp.2)).length = _
    rw [List.length_map, length_pitchEvents]
  rw [h1]
  have he : (playsOf data).enum = List.enumFrom 0 (playsOf data) := rfl
  rw [he]
  rw [map_comp_snd_enumFrom (fun play => (playEventsOf play).countP
    (fun ev => jTruthy (pyGet ev (("isPitch").toList)))) (playsOf data) 0]

theorem fst_ge_of_mem_enumFrom {α : Type} {y : Nat × α} {l : List α} :
    ∀ {n}, y ∈ List.enumFrom n l → n ≤ y.1 := by
  induction l with
  | nil => intro n h; simp [List.enumFrom] at h
  | cons x xs ih =>
    intro n h
    rw [List.enumFrom_cons] at h
    rcases List.mem_cons.mp h with h1 | h2
    · subst h1; exact le_refl n
    · have := ih h2
      omega

theorem pairwise_fst_lt_enumFrom {α : Type} (l : List α) : ∀ n,
    List.Pairwise (fun a b : Nat × α => a.1 < b.1) (List.enumFrom n l) := by
  induction l with
  | nil => intro n; simp [List.enumFrom]
  | cons x xs ih =>
    intro n
    rw [List.enumFrom_cons, List.pairwise_cons]
    refine ⟨?_, ih (n + 1)⟩
    intro y hy
    have := fst_ge_of_mem_enumFrom hy
    show n < y.1
    omega

theorem pairwise_pairLt_flatMap : ∀ L : List (Nat × JVal),
    List.Pairwise (fun a b : Nat × JVal => a.1 < b.1) L →
    List.Pairwise pairLt
      (L.flatMap (fun pp => (pitchEvents pp.2).map (fun ep => (pp.1, ep.1)))) := by
  intro L
  induction L with
  | nil => intro _; simp
  | cons pp L ih =>
    intro h
    rw [List.flatMap_cons, List.pairwise_append]
    rw [List.pairwise_cons] at h
    refine ⟨?_, ih h.2, ?_⟩
    · rw [List.pairwise_map]
      have hpe : List.Pairwise (fun a b : Nat × JVal => a.1 < b.1) (pitchEvents pp.2) :=
        List.Pairwise.sublist (List.filter_sublist _) (pairwise_fst_lt_enumFrom _ 0)
      exact hpe.imp (fun hab => Or.inr ⟨rfl, hab⟩)
    · intro a ha b hb
      obtain ⟨ep, _, rfl⟩ := List.mem_map.mp ha
      obtain ⟨qq, hqq, hb2⟩ := List.mem_flatMap.mp hb
      obtain ⟨eq2, _, rfl⟩ := List.mem_map.mp hb2
      exact Or.inl (h.1 qq hqq)

/-- The provenance pairs are strictly increasing lexicographically. -/
theorem pairwise_pitchPairs (data : JVal) : List.Pairwise pairLt (pitchPairs data) :=
  pairwise_pairLt_flatMap _ (pairwise_fst_lt_enumFrom _ 0)

/-- C3: `rows_from_game` returns exactly one row per sub-event whose
pitch flag is truthy, across all plays (non-pitch sub-events contribute
no row), and the rows are emitted in ascending order of play index,
then sub-event index within the play. -/
theorem rows_from_game_count_and_order (game_pk : Int) (data : JVal) :
    (rows_from_game game_pk data).length = countPitches data ∧
    rows_from_game game_pk data = (pitchPairs data).map (emitRow game_pk data) ∧
    List.Pairwise pairLt (pitchPairs data) :=
  ⟨length_rows game_pk data, rows_eq_map_emit game_pk data, pairwise_pitchPairs data⟩

/-- C5: each pitch row merges the flattened `details`, then `pitchData`,
then `hitData` blocks into the pre-row in that fixed order, each block
defaulting to empty when absent (`ev.get(...) or {}`) and flattened
independently; on a key collision a later `update` overwrites an earlier
binding (second conjunct: the `d.update(e)` lookup semantics). -/
theorem row_merges_blocks_in_order (game_pk : Int) (data : JVal) :
    (rows_from_game game_pk data = (pitchPairs data).map (fun pr =>
      dupdate (dupdate (dupdate
          (preRowOf game_pk (base_ctx game_pk data pr.1 (playAt data pr.1))
            (playAt data pr.1) pr.2)
          (dBlock (evAt (playAt data pr.1) pr.2)))
        (pBlock (evAt (playAt data pr.1) pr.2)))
      (hBlock (evAt (playAt data pr.1) pr.2)))) ∧
    ∀ (d e : Dict) (key : Str), dget? (dupdate d e) key = oor (dlastGet? e key) (dget? d key) :=
  ⟨rows_eq_map_emit game_pk data, dget?_dupdate⟩

/-- Lookup across the three flattened blocks, later blocks first. -/
def mergedBlocksGet (ev : JVal) (key : Str) : Option JVal :=
  oor (dlastGet? (hBlock ev) key) (oor (dlastGet? (pBlock ev) key) (dlastGet? (dBlock ev) key))

/-- The context field names of a row (the 16 play-context fields plus
the two per-event fields added before the merges). -/
def ctxKeys : List Str :=
  [("game_id").toList, ("game_date").toList, ("venue_name").toList, ("home_team").toList,
   ("away_team").toList, ("at_bat_index").toList, ("play_idx").toList, ("inning").toList,
   ("is_top_inning").toList, ("batter_id").toList, ("batter_name").toList,
   ("pitcher_id").toList, ("pitcher_name").toList, ("balls").toList, ("strikes").toList,
   ("outs").toList, ("event_idx").toList, ("pitch_uid").toList]

/-- C10: row construction is last-write-wins over the whole row
including the play context: a key produced by some flattened block gets
the merged blocks' value, silently replacing any context field of the
same name; a key produced by no block keeps its pre-row value, so
without collisions every context field appears unchanged (and every
context field is present in the pre-row, third conjunct). -/
theorem row_context_overwrite (game_pk : Int) (data : JVal) :
    (rows_from_game game_pk data = (pitchPairs data).map (emitRow game_pk data)) ∧
    (∀ (pr : Nat × Nat) (key : Str),
      dget? (emitRow game_pk data pr) key =
        oor (mergedBlocksGet (evAt (playAt data pr.1) pr.2) key)
          (dget? (preRowOf game_pk (base_ctx game_pk data pr.1 (playAt data pr.1))
            (playAt data pr.1) pr.2) key)) ∧
    (∀ pr : Nat × Nat, (ctxKeys.all (fun key =>
      (dget? (preRowOf game_pk (base_ctx game_pk data pr.1 (playAt data pr.1))
        (playAt data pr.1) pr.2) key).isSome)) = true) := by
  refine ⟨rows_eq_map_emit game_pk data, ?_, ?_⟩
  · intro pr key
    show dget? (dupdate (dupdate (dupdate _ _) _) _) key = _
    rw [dget?_dupdate, dget?_dupdate, dget?_dupdate]
    simp only [mergedBlocksGet, oor_assoc]
  · intro pr
    rfl

/-! ### Pitch uid distinctness (C4) -/

def digitVal (c : Char) : Nat := c.toNat - 48

def strVal (s : Str) : Nat := s.foldl (fun a c => 10 * a + digitVal c) 0

theorem strVal_append_digit (xs : Str) (c : Char) :
    strVal (xs ++ [c]) = 10 * strVal xs + digitVal c := by
  unfold strVal
  rw [List.foldl_append]
  rfl

theorem digitVal_digitChar : ∀ d, d < 10 → digitVal (digitChar d) = d := by decide

theorem strVal_natStrAux : ∀ fuel n, n < fuel → strVal (natStrAux fuel n) = n := by
  intro fuel
  induction fuel with
  | zero => intro n h; omega
  | succ f ih =>
    intro n h
    show strVal (if n < 10 then [digitChar n]
      else natStrAux f (n / 10) ++ [digitChar (n % 10)]) = n
    by_cases h10 : n < 10
    · rw [if_pos h10]
      show 10 * 0 + digitVal (digitChar n) = n
      rw [digitVal_digitChar n h10]
      omega
    · rw [if_neg h10]
      rw [strVal_append_digit, ih (n / 10) (by omega), digitVal_digitChar (n % 10) (by omega)]
      omega

theorem natStr_inj {m n : Nat} (h : natStr m = natStr n) : m = n := by
  have hm := strVal_natStrAux (m + 1) m (by omega)
  have hn := strVal_natStrAux (n + 1) n (by omega)
  rw [show natStrAux (m + 1) m = natStr m from rfl] at hm
  rw [show natStrAux (n + 1) n = natStr n from rfl] at hn
  rw [h, hn] at hm
  omega

theorem digitChar_ne_dash (d : Nat) : digitChar d ≠ '-' := by
  match d with
  | 0 => decide
  | 1 => decide
  | 2 => decide
  | 3 => decide
  | 4 => decide
  | 5 => decide
  | 6 => decide
  | 7 => decide
  | 8 => decide
  | n + 9 =>
    show ('9' : Char) ≠ '-'
    decide

theorem natStrAux_no_dash : ∀ fuel n, '-' ∉ natStrAux fuel n := by
  intro fuel
  induction fuel with
  | zero => intro n h; simp [natStrAux] at h
  | succ f ih =>
    intro n h
    rw [show natStrAux (f + 1) n = (if n < 10 then [digitChar n]
      else natStrAux f (n / 10) ++ [digitChar (n % 10)]) from rfl] at h
    by_cases h10 : n < 10
    · rw [if_pos h10] at h
      rcases List.mem_cons.mp h with h1 | h1
      · exact digitChar_ne_dash n h1.symm
      · simp at h1
    · rw [if_neg h10] at h
      rcases List.mem_append.mp h with h1 | h1
      · exact ih (n / 10) h1
      · rcases List.mem_cons.mp h1 with h2 | h2
        · exact digitChar_ne_dash (n % 10) h2.symm
        · simp at h2

theorem natStr_no_dash (n : Nat) : '-' ∉ natStr n := natStrAux_no_dash (n + 1) n

/-- Splitting at a dash is unambiguous when both heads are dash-free. -/
theorem dash_split : ∀ (xs1 : Str) {ys1 : Str} (xs2 : Str) {ys2 : Str},
    xs1 ++ '-' :: ys1 = xs2 ++ '-' :: ys2 →
    '-' ∉ xs1 → '-' ∉ xs2 → xs1 = xs2 ∧ ys1 = ys2 := by
  intro xs1
  induction xs1 with
  | nil =>
    intro ys1 xs2 ys2 heq h1 h2
    cases xs2 with
    | nil =>
      refine ⟨rfl, ?_⟩
      injection heq
    | cons c t =>
      injection heq with hc _
      exact absurd (hc ▸ List.mem_cons_self c t) h2
  | cons a t ih =>
    intro ys1 xs2 ys2 heq h1 h2
    cases xs2 with
    | nil =>
      injection heq with hc _
      exact absurd (hc ▸ List.mem_cons_self a t) h1
    | cons b t2 =>
      injection heq with hab hrest
      subst hab
      obtain ⟨h3, h4⟩ := ih t2 hrest
        (fun hm => h1 (List.mem_cons_of_mem _ hm))
        (fun hm => h2 (List.mem_cons_of_mem _ hm))
      exact ⟨by rw [h3], h4⟩

/-- A pitch uid determines the formatted `atBatIndex` and the event
index (for a fixed game id). -/
theorem pitchUid_inj (game_pk : Int) {p1 p2 : JVal} {e1 e2 : Nat}
    (h : pitchUid game_pk p1 e1 = pitchUid game_pk p2 e2) :
    fmtJVal (pyGet p1 (("atBatIndex").toList)) = fmtJVal (pyGet p2 (("atBatIndex").toList)) ∧
    e1 = e2 := by
  unfold pitchUid at h
  have h2 := List.append_cancel_left h
  injection h2 with _ h3
  -- h3 : B1 ++ '-' :: natStr e1 = B2 ++ '-' :: natStr e2
  have h4 := congrArg List.reverse h3
  rw [List.reverse_append, List.reverse_append, List.reverse_cons, List.reverse_cons] at h4
  simp only [List.append_assoc, List.singleton_append] at h4
  obtain ⟨h5, h6⟩ := dash_split _ _ h4
    (fun hm => natStr_no_dash e1 (List.mem_reverse.mp hm))
    (fun hm => natStr_no_dash e2 (List.mem_reverse.mp hm))
  refine ⟨List.reverse_injective h6, natStr_inj (List.reverse_injective h5)⟩

/-- The synthesized uid of the row for provenance pair `pr`. -/
def uidOfPair (game_pk : Int) (data : JVal) (pr : Nat × Nat) : Str :=
  pitchUid game_pk (playAt data pr.1) pr.2

theorem fst_lt_length_of_mem_pitchPairs {data : JVal} {pr : Nat × Nat}
    (h : pr ∈ pitchPairs data) : pr.1 < (playsOf data).length := by
  obtain ⟨pp, hpp, hmem⟩ := List.mem_flatMap.mp h
  obtain ⟨ep, _, rfl⟩ := List.mem_map.mp hmem
  have h2 : (playsOf data)[pp.1]? = some pp.2 := List.mem_enum_iff_getElem?.mp hpp
  obtain ⟨hlt, _⟩ := List.getElem?_eq_some.mp h2
  exact hlt

theorem playAt_eq_get {data : JVal} {i : Nat} (h : i < (playsOf data).length) :
    playAt data i = (playsOf data).get ⟨i, h⟩ := by
  simp [playAt, List.getD_eq_getElem?_getD, List.getElem?_eq_getElem h]

/-- C4 (amended): provided the plays of the payload have pairwise
distinct formatted `atBatIndex` values (as real feeds do), any two
distinct rows produced from the same game carry distinct synthesized
`pitch_uid` strings (with duplicated `atBatIndex` values across plays
the claim fails, see the counterexample). -/
theorem pitch_uids_distinct (game_pk : Int) (data : JVal)
    (hab : List.Pairwise (fun p q : JVal =>
      fmtJVal (pyGet p (("atBatIndex").toList)) ≠ fmtJVal (pyGet q (("atBatIndex").toList)))
      (playsOf data)) :
    (rows_from_game game_pk data = (pitchPairs data).map (emitRow game_pk data)) ∧
    List.Pairwise (fun u v : Str => u ≠ v)
      ((pitchPairs data).map (uidOfPair game_pk data)) := by
  refine ⟨rows_eq_map_emit game_pk data, ?_⟩
  rw [List.pairwise_map]
  apply List.Pairwise.imp_of_mem ?_ (pairwise_pitchPairs data)
  intro pr1 pr2 h1 h2 hlt heq
  have hi1 := fst_lt_length_of_mem_pitchPairs h1
  have hi2 := fst_lt_length_of_mem_pitchPairs h2
  obtain ⟨hfmt, hev⟩ := pitchUid_inj game_pk heq
  rcases hlt with hfst | ⟨hfsteq, hsnd⟩
  · have hne := List.pairwise_iff_get.mp hab ⟨pr1.1, hi1⟩ ⟨pr2.1, hi2⟩ hfst
    rw [playAt_eq_get hi1, playAt_eq_get hi2] at hfmt
    exact hne hfmt
  · omega

/-- Two plays with the same (absent) `atBatIndex`, one pitch each; the
plays differ in `inning`.  Both rows get `pitch_uid = "7-None-0"`. -/
def dupUidPayload : JVal :=
  objL [(("liveData").toList, objL [(("plays").toList, objL [(("allPlays").toList,
    arrL [
      objL [(("about").toList, objL [(("inning").toList, JVal.num 1)]),
            (("playEvents").toList, arrL [objL [(("isPitch").toList, JVal.bool true)]])],
      objL [(("about").toList, objL [(("inning").toList, JVal.num 2)]),
            (("playEvents").toList, arrL [objL [(("isPitch").toList, JVal.bool true)]])]])])])]

/-- C4 counterexample: two distinct rows from the same game payload with
identical `pitch_uid` values (duplicate `atBatIndex` across plays). -/
theorem pitch_uids_distinct_cex :
    (rows_from_game 7 dupUidPayload).length = 2 ∧
    (rows_from_game 7 dupUidPayload).getD 0 [] ≠ (rows_from_game 7 dupUidPayload).getD 1 [] ∧
    dget? ((rows_from_game 7 dupUidPayload).getD 0 []) (("pitch_uid").toList) =
      dget? ((rows_from_game 7 dupUidPayload).getD 1 []) (("pitch_uid").toList) := by
  refine ⟨rfl, ?_, rfl⟩
  intro h
  have h2 : dget? ((rows_from_game 7 dupUidPayload).getD 0 []) (("inning").toList) =
      dget? ((rows_from_game 7 dupUidPayload).getD 1 []) (("inning").toList) := by rw [h]
  have h3 : dget? ((rows_from_game 7 dupUidPayload).getD 0 []) (("inning").toList) =
      some (JVal.num 1) := rfl
  have h4 : dget? ((rows_from_game 7 dupUidPayload).getD 1 []) (("inning").toList) =
      some (JVal.num 2) := rfl
  rw [h3, h4] at h2
  injection h2 with h5
  injection h5 with h6
  exact absurd h6 (by decide)

/-- Two plays with distinct `atBatIndex` values, one pitch each. -/
def distinctUidPayload : JVal :=
  objL [(("liveData").toList, objL [(("plays").toList, objL [(("allPlays").toList,
    arrL [
      objL [(("atBatIndex").toList, JVal.num 0),
            (("playEvents").toList, arrL [objL [(("isPitch").toList, JVal.bool true)]])],
      objL [(("atBatIndex").toList, JVal.num 1),
            (("playEvents").toList, arrL [objL [(("isPitch").toList, JVal.bool true)]])]])])])]

/-- C4 witness at a concrete two-play payload with distinct
`atBatIndex` values. -/
theorem pitch_uids_distinct_witness :
    (List.Pairwise (fun p q : JVal =>
      fmtJVal (pyGet p (("atBatIndex").toList)) ≠ fmtJVal (pyGet q (("atBatIndex").toList)))
      (playsOf distinctUidPayload)) ∧
    List.Pairwise (fun u v : Str => u ≠ v)
      ((pitchPairs distinctUidPayload).map (uidOfPair 7 distinctUidPayload)) :=
  ⟨by decide, (pitch_uids_distinct 7 distinctUidPayload (by decide)).2⟩
